import Mathlib

/-!
Verification of the seagull registry wrapper (src/include/seagull/registry.h).

The header is a thin C++ layer over the Windows registry API.  We shallowly
embed it: wide characters and bytes are `Nat`, wide strings are `List Nat`,
fallible operations return `Except Nat α` where the `Nat` is the nonzero
Win32 status code thrown by `THROW_IF_WIN32_ERROR`.  The OS store is an
external collaborator; each operation is parameterised by an oracle giving
the store's response to each call the C++ code issues, and the operations
additionally record the trace of store calls they issue so that "exactly one
write call" style properties are statable.
-/

namespace seagull

abbrev WCHAR := Nat
abbrev BYTE := Nat

-- Registry type tags (winnt.h).
def REG_SZ : Nat := 1
def REG_EXPAND_SZ : Nat := 2
def REG_BINARY : Nat := 3
def REG_DWORD : Nat := 4
def REG_MULTI_SZ : Nat := 7
def REG_QWORD : Nat := 11

def ERROR_SUCCESS : Nat := 0
def ERROR_FILE_NOT_FOUND : Nat := 2

/-- Model of `THROW_IF_WIN32_ERROR(status)`: succeed when the status is
`ERROR_SUCCESS`, otherwise throw carrying the status code. -/
def throwIfWin32Error (status : Nat) : Except Nat Unit :=
  if status = ERROR_SUCCESS then .ok () else .error status

/-- Source function `internals::build_multistring`.  Faithful to the source, including the
empty-list branch `std::vector<wchar_t>(L'\0', 2)`, which selects the
`(count, value)` constructor with `count = (size_t)L'\0' = 0` and
`value = (wchar_t)2`, hence builds an empty buffer. -/
def build_multistring (strings : List (List WCHAR)) : List WCHAR :=
  if strings.isEmpty then
    List.replicate 0 2
  else
    (strings.foldl (fun acc s => acc ++ s ++ [0]) []) ++ [0]

end seagull

namespace seagull

theorem build_multistring_foldl (strings : List (List WCHAR)) (acc : List WCHAR) :
    strings.foldl (fun acc s => acc ++ s ++ [0]) acc
      = acc ++ (strings.map (fun s => s ++ [0])).flatten := by
  induction strings generalizing acc with
  | nil => simp
  | cons s rest ih =>
      rw [List.foldl_cons, ih]
      simp [List.append_assoc]

/-- C1 (code bug witnessed): the source's `build_multistring` applied to
the empty list returns an *empty* buffer, not the two NUL wide characters
the claim states: the `std::vector<wchar_t>(L'\0', 2)` call swaps the
count/value constructor arguments. -/
theorem build_multistring_empty_is_empty :
    build_multistring [] = [] ∧ build_multistring [] ≠ [0, 0] := by
  constructor
  · rfl
  · intro h
    simp [build_multistring] at h

/-- C2: for a non-empty list of strings without embedded NULs,
`build_multistring` returns each string followed by one NUL, in order, plus
one final NUL; the result ends in two consecutive NULs and has length
`(sum of (length s + 1)) + 1`. -/
theorem build_multistring_nonempty (strings : List (List WCHAR))
    (hne : strings ≠ []) (hnul : ∀ s ∈ strings, (0 : Nat) ∉ s) :
    build_multistring strings = (strings.map (fun s => s ++ [0])).flatten ++ [0]
      ∧ (build_multistring strings).length
          = (strings.map (fun s => s.length + 1)).sum + 1
      ∧ ∃ front, build_multistring strings = front ++ [0, 0] := by
  have hform : build_multistring strings
      = (strings.map (fun s => s ++ [0])).flatten ++ [0] := by
    unfold build_multistring
    rw [if_neg (by simpa [List.isEmpty_iff] using hne)]
    rw [build_multistring_foldl]
    simp
  refine ⟨hform, ?_, ?_⟩
  · rw [hform]
    have hm : List.map List.length (List.map (fun s => s ++ [0]) strings)
        = List.map (fun s : List WCHAR => s.length + 1) strings := by
      rw [List.map_map]
      simp [Function.comp_def]
    simp [List.length_flatten, hm]
  · obtain ⟨last, front0, hrev⟩ := List.exists_cons_of_ne_nil
      (l := strings.reverse) (by simpa using hne)
    have hstr : strings = front0.reverse ++ [last] := by
      have := congrArg List.reverse hrev
      simpa using this
    refine ⟨(front0.reverse.map (fun s => s ++ [0])).flatten ++ last, ?_⟩
    rw [hform, hstr]
    simp [List.append_assoc]

/-- Witness for C2 at the concrete input `[[1], [2, 3]]`. -/
theorem build_multistring_nonempty_witness :
    build_multistring [[1], [2, 3]] = [1, 0, 2, 3, 0, 0]
      ∧ (build_multistring [[1], [2, 3]]).length = 6 := by
  have h := build_multistring_nonempty [[1], [2, 3]] (by decide) (by decide)
  refine ⟨?_, ?_⟩
  · rw [h.1]; rfl
  · rw [h.2.1]; rfl

/-! ## Enumeration protocol

`enum_subkeys`, `enum_values` and `enum_value_names` each query the key's
info once (`RegQueryInfoKeyW`), allocate one reusable buffer of capacity
"queried maximum name length + 1", and then issue one enumerate-at-index
call per index `0 .. count-1`, pushing each decoded item; the first
failing status throws, so the partially collected vector is destroyed.
The store's responses are an oracle; each operation also exposes the trace
of (index, capacity) enumerate calls it issued. -/

/-- Source value snapshot `struct Value`: type tag, owned byte buffer and
the number of valid bytes in it. -/
structure Value where
  type : Nat
  data : List BYTE
  length : Nat
  deriving DecidableEq, Repr

/-- Fixed-capacity sweep loop shared by `enum_subkeys` and
`enum_value_names`: `call i cap` is the store's response to the
enumerate-at-index-`i` call issued with buffer capacity `cap`.  Returns the
collected items — discarded wholesale on the first error, exactly as the
C++ `ret` vector dies when `THROW_IF_WIN32_ERROR` throws — paired with the
trace of (index, capacity) store calls issued. -/
def sweep {α : Type} (call : Nat → Nat → Except Nat α) (cap : Nat) :
    Nat → Nat → Except Nat (List α) × List (Nat × Nat)
  | _, 0 => (.ok [], [])
  | i, n + 1 =>
    match call i cap with
    | .error e => (.error e, [(i, cap)])
    | .ok x =>
      match sweep call cap (i + 1) n with
      | (.error e, tr) => (.error e, (i, cap) :: tr)
      | (.ok rest, tr) => (.ok (x :: rest), (i, cap) :: tr)

/-- Store oracle for `Key::enum_subkeys`: `queryInfo` is the
`RegQueryInfoKeyW` response `(subKeyCount, maxSubKeyNameLength)`; `enumKeyAt
i cap` is the `RegEnumKeyExW` response at index `i` with a name buffer of
capacity `cap`, yielding the subkey name written. -/
structure SubkeyStore where
  queryInfo : Except Nat (Nat × Nat)
  enumKeyAt : Nat → Nat → Except Nat (List WCHAR)

/-- Source method `Key::enum_subkeys`. -/
def enum_subkeys (st : SubkeyStore) : Except Nat (List (List WCHAR)) :=
  match st.queryInfo with
  | .error e => .error e
  | .ok (subKeyCount, maxSubKeyNameLength) =>
    (sweep st.enumKeyAt (maxSubKeyNameLength + 1) 0 subKeyCount).1

/-- Trace of enumerate-at-index calls issued by `Key::enum_subkeys`. -/
def enum_subkeys_calls (st : SubkeyStore) : List (Nat × Nat) :=
  match st.queryInfo with
  | .error _ => []
  | .ok (subKeyCount, maxSubKeyNameLength) =>
    (sweep st.enumKeyAt (maxSubKeyNameLength + 1) 0 subKeyCount).2

/-- Store oracle for `Key::enum_value_names`: `queryInfo` is the
`RegQueryInfoKeyW` response `(valCount, maxValNameLength)`; `enumNameAt i
cap` is the `RegEnumValueW` response (name only, data pointers NULL). -/
structure ValueNameStore where
  queryInfo : Except Nat (Nat × Nat)
  enumNameAt : Nat → Nat → Except Nat (List WCHAR)

/-- Source method `Key::enum_value_names`. -/
def enum_value_names (st : ValueNameStore) : Except Nat (List (List WCHAR)) :=
  match st.queryInfo with
  | .error e => .error e
  | .ok (valCount, maxValNameLength) =>
    (sweep st.enumNameAt (maxValNameLength + 1) 0 valCount).1

/-- Trace of enumerate-at-index calls issued by `Key::enum_value_names`. -/
def enum_value_names_calls (st : ValueNameStore) : List (Nat × Nat) :=
  match st.queryInfo with
  | .error _ => []
  | .ok (valCount, maxValNameLength) =>
    (sweep st.enumNameAt (maxValNameLength + 1) 0 valCount).2

/-- Store oracle for `Key::enum_values`: `queryInfo` is the
`RegQueryInfoKeyW` response `(valCount, maxValNameLength, maxValLength)`;
`enumValueAt i nameCap dataCap` is the `RegEnumValueW` response at index
`i`: the value's name, its type tag, and the bytes the store wrote into the
front of the data buffer (their number is the reported `valLength`). -/
structure ValueStore where
  queryInfo : Except Nat (Nat × Nat × Nat)
  enumValueAt : Nat → Nat → Nat → Except Nat (List WCHAR × Nat × List BYTE)

/-- Loop body of `Key::enum_values`, threading the reusable `valBuf`: the
store overwrites its first `valLength` bytes (stale bytes beyond that
remain), then `memcpy` copies the first `valLength` bytes into a freshly
allocated `valBufOther` which the returned `Value` owns. -/
def valuesSweep (st : ValueStore) (nameCap dataCap : Nat) :
    Nat → Nat → List BYTE →
      Except Nat (List (List WCHAR × Value)) × List (Nat × Nat × Nat)
  | _, 0, _ => (.ok [], [])
  | i, n + 1, valBuf =>
    match st.enumValueAt i nameCap dataCap with
    | .error e => (.error e, [(i, nameCap, dataCap)])
    | .ok (valName, ty, written) =>
      match valuesSweep st nameCap dataCap (i + 1) n
          (written ++ valBuf.drop written.length) with
      | (.error e, tr) => (.error e, (i, nameCap, dataCap) :: tr)
      | (.ok rest, tr) =>
        (.ok ((valName,
               ⟨ty,
                (written ++ valBuf.drop written.length).take written.length,
                written.length⟩) :: rest),
         (i, nameCap, dataCap) :: tr)

/-- Source method `Key::enum_values`; `make_unique<BYTE[]>(maxValLength)`
zero-initialises the reusable data buffer. -/
def enum_values (st : ValueStore) :
    Except Nat (List (List WCHAR × Value)) :=
  match st.queryInfo with
  | .error e => .error e
  | .ok (valCount, maxValNameLength, maxValLength) =>
    (valuesSweep st (maxValNameLength + 1) maxValLength 0 valCount
      (List.replicate maxValLength 0)).1

/-- Trace of enumerate-at-index calls issued by `Key::enum_values`. -/
def enum_values_calls (st : ValueStore) : List (Nat × Nat × Nat) :=
  match st.queryInfo with
  | .error _ => []
  | .ok (valCount, maxValNameLength, maxValLength) =>
    (valuesSweep st (maxValNameLength + 1) maxValLength 0 valCount
      (List.replicate maxValLength 0)).2

theorem take_len_append {α : Type} (l₁ l₂ : List α) :
    (l₁ ++ l₂).take l₁.length = l₁ := by
  induction l₁ with
  | nil => simp
  | cons a t ih => simp [ih]

theorem sweep_succ_eq {α : Type} (call : Nat → Nat → Except Nat α) (cap i n : Nat) :
    sweep call cap i (n + 1)
      = match call i cap with
        | .error e => (.error e, [(i, cap)])
        | .ok x =>
          match sweep call cap (i + 1) n with
          | (.error e, tr) => (.error e, (i, cap) :: tr)
          | (.ok rest, tr) => (.ok (x :: rest), (i, cap) :: tr) := rfl

theorem sweep_succ_error_head {α : Type} (call : Nat → Nat → Except Nat α)
    (cap i n e : Nat) (h : call i cap = .error e) :
    sweep call cap i (n + 1) = (.error e, [(i, cap)]) := by
  rw [sweep_succ_eq, h]

theorem sweep_succ_ok_head {α : Type} (call : Nat → Nat → Except Nat α)
    (cap i n : Nat) (x : α) (h : call i cap = .ok x) :
    sweep call cap i (n + 1)
      = ((sweep call cap (i + 1) n).1.map (fun rest => x :: rest),
         (i, cap) :: (sweep call cap (i + 1) n).2) := by
  rw [sweep_succ_eq, h]
  rcases hs : sweep call cap (i + 1) n with ⟨res, tr⟩
  cases res <;> simp [Except.map]

theorem sweep_ok_length {α : Type} (call : Nat → Nat → Except Nat α) (cap : Nat) :
    ∀ (n i : Nat) (xs : List α), (sweep call cap i n).1 = .ok xs → xs.length = n := by
  intro n
  induction n with
  | zero =>
    intro i xs h
    simp only [sweep] at h
    cases h
    rfl
  | succ n ih =>
    intro i xs h
    cases hc : call i cap with
    | error e =>
      rw [sweep_succ_error_head call cap i n e hc] at h
      simp at h
    | ok x =>
      rw [sweep_succ_ok_head call cap i n x hc] at h
      cases hs : (sweep call cap (i + 1) n).1 with
      | error e => rw [hs] at h; simp [Except.map] at h
      | ok rest =>
        rw [hs] at h
        simp [Except.map] at h
        rw [← h]
        simp [ih (i + 1) rest hs]

theorem sweep_all_ok {α : Type} (call : Nat → Nat → Except Nat α) (cap : Nat) :
    ∀ (n i : Nat), (∀ j, j < n → ∃ x, call (i + j) cap = .ok x) →
      ∃ xs, (sweep call cap i n).1 = .ok xs ∧ xs.length = n := by
  intro n
  induction n with
  | zero => intro i _; exact ⟨[], rfl, rfl⟩
  | succ n ih =>
    intro i hall
    obtain ⟨x, hx⟩ := hall 0 (Nat.succ_pos n)
    rw [Nat.add_zero] at hx
    obtain ⟨xs, hxs, hlen⟩ := ih (i + 1) (fun j hj => by
      obtain ⟨y, hy⟩ := hall (j + 1) (Nat.succ_lt_succ hj)
      have e1 : i + 1 + j = i + (j + 1) := by omega
      exact ⟨y, by rw [e1]; exact hy⟩)
    refine ⟨x :: xs, ?_, by simp [hlen]⟩
    rw [sweep_succ_ok_head call cap i n x hx]
    simp [hxs, Except.map]

theorem sweep_first_error {α : Type} (call : Nat → Nat → Except Nat α) (cap : Nat) :
    ∀ (n i j e : Nat), j < n → call (i + j) cap = .error e →
      (∀ k, k < j → ∃ x, call (i + k) cap = .ok x) →
      (sweep call cap i n).1 = .error e := by
  intro n
  induction n with
  | zero => intro i j e hj _ _; omega
  | succ n ih =>
    intro i j e hj hfail hok
    cases j with
    | zero =>
      rw [Nat.add_zero] at hfail
      rw [sweep_succ_error_head call cap i n e hfail]
    | succ j =>
      obtain ⟨x, hx⟩ := hok 0 (Nat.succ_pos j)
      rw [Nat.add_zero] at hx
      rw [sweep_succ_ok_head call cap i n x hx]
      have hrec : (sweep call cap (i + 1) n).1 = .error e := by
        refine ih (i + 1) j e (Nat.lt_of_succ_lt_succ hj) ?_ ?_
        · have e1 : i + 1 + j = i + (j + 1) := by omega
          rw [e1]
          exact hfail
        · intro k hk
          obtain ⟨y, hy⟩ := hok (k + 1) (Nat.succ_lt_succ hk)
          have e1 : i + 1 + k = i + (k + 1) := by omega
          exact ⟨y, by rw [e1]; exact hy⟩
      simp [hrec, Except.map]

theorem sweep_ok_get {α : Type} (call : Nat → Nat → Except Nat α) (cap : Nat) :
    ∀ (n i : Nat) (xs : List α), (sweep call cap i n).1 = .ok xs →
      ∀ (j : Nat) (h : j < xs.length), call (i + j) cap = .ok (xs.get ⟨j, h⟩) := by
  intro n
  induction n with
  | zero =>
    intro i xs h j hj
    simp only [sweep] at h
    cases h
    simp at hj
  | succ n ih =>
    intro i xs h j hj
    cases hc : call i cap with
    | error e =>
      rw [sweep_succ_error_head call cap i n e hc] at h
      simp at h
    | ok x =>
      rw [sweep_succ_ok_head call cap i n x hc] at h
      cases hs : (sweep call cap (i + 1) n).1 with
      | error e => rw [hs] at h; simp [Except.map] at h
      | ok rest =>
        rw [hs] at h
        simp [Except.map] at h
        subst h
        cases j with
        | zero => simpa using hc
        | succ j =>
          have hj' : j < rest.length := by simpa using Nat.lt_of_succ_lt_succ hj
          have e1 : i + (j + 1) = i + 1 + j := by omega
          rw [e1]
          simpa using ih (i + 1) rest hs j hj'

theorem sweep_trace_all_ok {α : Type} (call : Nat → Nat → Except Nat α) (cap : Nat) :
    ∀ (n i : Nat), (∀ j, j < n → ∃ x, call (i + j) cap = .ok x) →
      (sweep call cap i n).2 = (List.range' i n).map (fun j => (j, cap)) := by
  intro n
  induction n with
  | zero => intro i _; rfl
  | succ n ih =>
    intro i hall
    obtain ⟨x, hx⟩ := hall 0 (Nat.succ_pos n)
    rw [Nat.add_zero] at hx
    rw [sweep_succ_ok_head call cap i n x hx, List.range'_succ]
    simp only [List.map_cons]
    congr 1
    exact ih (i + 1) (fun j hj => by
      obtain ⟨y, hy⟩ := hall (j + 1) (Nat.succ_lt_succ hj)
      have e1 : i + 1 + j = i + (j + 1) := by omega
      exact ⟨y, by rw [e1]; exact hy⟩)

theorem valuesSweep_succ_eq (st : ValueStore) (nameCap dataCap i n : Nat)
    (valBuf : List BYTE) :
    valuesSweep st nameCap dataCap i (n + 1) valBuf
      = match st.enumValueAt i nameCap dataCap with
        | .error e => (.error e, [(i, nameCap, dataCap)])
        | .ok (valName, ty, written) =>
          match valuesSweep st nameCap dataCap (i + 1) n
              (written ++ valBuf.drop written.length) with
          | (.error e, tr) => (.error e, (i, nameCap, dataCap) :: tr)
          | (.ok rest, tr) =>
            (.ok ((valName,
                   ⟨ty,
                    (written ++ valBuf.drop written.length).take written.length,
                    written.length⟩) :: rest),
             (i, nameCap, dataCap) :: tr) := rfl

theorem valuesSweep_succ_error_head (st : ValueStore) (nameCap dataCap i n e : Nat)
    (valBuf : List BYTE) (h : st.enumValueAt i nameCap dataCap = .error e) :
    valuesSweep st nameCap dataCap i (n + 1) valBuf
      = (.error e, [(i, nameCap, dataCap)]) := by
  rw [valuesSweep_succ_eq, h]

theorem valuesSweep_succ_ok_head (st : ValueStore) (nameCap dataCap i n : Nat)
    (valBuf : List BYTE) (valName : List WCHAR) (ty : Nat) (written : List BYTE)
    (h : st.enumValueAt i nameCap dataCap = .ok (valName, ty, written)) :
    valuesSweep st nameCap dataCap i (n + 1) valBuf
      = ((valuesSweep st nameCap dataCap (i + 1) n
            (written ++ valBuf.drop written.length)).1.map
           (fun rest => (valName, Value.mk ty written written.length) :: rest),
         (i, nameCap, dataCap)
           :: (valuesSweep st nameCap dataCap (i + 1) n
                (written ++ valBuf.drop written.length)).2) := by
  rw [valuesSweep_succ_eq, h]
  rcases hs : valuesSweep st nameCap dataCap (i + 1) n
      (written ++ valBuf.drop written.length) with ⟨res, tr⟩
  cases res <;> simp [hs, Except.map, take_len_append]

theorem valuesSweep_ok_length (st : ValueStore) (nameCap dataCap : Nat) :
    ∀ (n i : Nat) (valBuf : List BYTE) (pairs : List (List WCHAR × Value)),
      (valuesSweep st nameCap dataCap i n valBuf).1 = .ok pairs →
      pairs.length = n := by
  intro n
  induction n with
  | zero =>
    intro i valBuf pairs h
    simp only [valuesSweep] at h
    cases h
    rfl
  | succ n ih =>
    intro i valBuf pairs h
    cases hc : st.enumValueAt i nameCap dataCap with
    | error e =>
      rw [valuesSweep_succ_error_head st nameCap dataCap i n e valBuf hc] at h
      simp at h
    | ok r =>
      obtain ⟨valName, ty, written⟩ := r
      rw [valuesSweep_succ_ok_head st nameCap dataCap i n valBuf
        valName ty written hc] at h
      cases hs : (valuesSweep st nameCap dataCap (i + 1) n
          (written ++ valBuf.drop written.length)).1 with
      | error e => rw [hs] at h; simp [Except.map] at h
      | ok rest =>
        rw [hs] at h
        simp [Except.map] at h
        rw [← h]
        simp [ih (i + 1) (written ++ valBuf.drop written.length) rest hs]

theorem valuesSweep_all_ok (st : ValueStore) (nameCap dataCap : Nat) :
    ∀ (n i : Nat) (valBuf : List BYTE),
      (∀ j, j < n → ∃ r, st.enumValueAt (i + j) nameCap dataCap = .ok r) →
      ∃ pairs, (valuesSweep st nameCap dataCap i n valBuf).1 = .ok pairs
        ∧ pairs.length = n := by
  intro n
  induction n with
  | zero => intro i valBuf _; exact ⟨[], rfl, rfl⟩
  | succ n ih =>
    intro i valBuf hall
    obtain ⟨r, hx⟩ := hall 0 (Nat.succ_pos n)
    rw [Nat.add_zero] at hx
    obtain ⟨valName, ty, written⟩ := r
    obtain ⟨pairs, hps, hlen⟩ := ih (i + 1) (written ++ valBuf.drop written.length)
      (fun j hj => by
        obtain ⟨y, hy⟩ := hall (j + 1) (Nat.succ_lt_succ hj)
        have e1 : i + 1 + j = i + (j + 1) := by omega
        exact ⟨y, by rw [e1]; exact hy⟩)
    refine ⟨(valName, Value.mk ty written written.length) :: pairs, ?_, by simp [hlen]⟩
    rw [valuesSweep_succ_ok_head st nameCap dataCap i n valBuf valName ty written hx]
    simp [hps, Except.map]

theorem valuesSweep_first_error (st : ValueStore) (nameCap dataCap : Nat) :
    ∀ (n i j e : Nat) (valBuf : List BYTE), j < n →
      st.enumValueAt (i + j) nameCap dataCap = .error e →
      (∀ k, k < j → ∃ r, st.enumValueAt (i + k) nameCap dataCap = .ok r) →
      (valuesSweep st nameCap dataCap i n valBuf).1 = .error e := by
  intro n
  induction n with
  | zero => intro i j e valBuf hj _ _; omega
  | succ n ih =>
    intro i j e valBuf hj hfail hok
    cases j with
    | zero =>
      rw [Nat.add_zero] at hfail
      rw [valuesSweep_succ_error_head st nameCap dataCap i n e valBuf hfail]
    | succ j =>
      obtain ⟨r, hx⟩ := hok 0 (Nat.succ_pos j)
      rw [Nat.add_zero] at hx
      obtain ⟨valName, ty, written⟩ := r
      rw [valuesSweep_succ_ok_head st nameCap dataCap i n valBuf valName ty written hx]
      have hrec : (valuesSweep st nameCap dataCap (i + 1) n
          (written ++ valBuf.drop written.length)).1 = .error e := by
        refine ih (i + 1) j e (written ++ valBuf.drop written.length)
          (Nat.lt_of_succ_lt_succ hj) ?_ ?_
        · have e1 : i + 1 + j = i + (j + 1) := by omega
          rw [e1]
          exact hfail
        · intro k hk
          obtain ⟨y, hy⟩ := hok (k + 1) (Nat.succ_lt_succ hk)
          have e1 : i + 1 + k = i + (k + 1) := by omega
          exact ⟨y, by rw [e1]; exact hy⟩
      simp [hrec, Except.map]

theorem valuesSweep_ok_get (st : ValueStore) (nameCap dataCap : Nat) :
    ∀ (n i : Nat) (valBuf : List BYTE) (pairs : List (List WCHAR × Value)),
      (valuesSweep st nameCap dataCap i n valBuf).1 = .ok pairs →
      ∀ (j : Nat) (h : j < pairs.length),
        ∃ valName ty written,
          st.enumValueAt (i + j) nameCap dataCap = .ok (valName, ty, written)
            ∧ pairs.get ⟨j, h⟩ = (valName, Value.mk ty written written.length) := by
  intro n
  induction n with
  | zero =>
    intro i valBuf pairs h j hj
    simp only [valuesSweep] at h
    cases h
    simp at hj
  | succ n ih =>
    intro i valBuf pairs h j hj
    cases hc : st.enumValueAt i nameCap dataCap with
    | error e =>
      rw [valuesSweep_succ_error_head st nameCap dataCap i n e valBuf hc] at h
      simp at h
    | ok r =>
      obtain ⟨valName, ty, written⟩ := r
      rw [valuesSweep_succ_ok_head st nameCap dataCap i n valBuf
        valName ty written hc] at h
      cases hs : (valuesSweep st nameCap dataCap (i + 1) n
          (written ++ valBuf.drop written.length)).1 with
      | error e => rw [hs] at h; simp [Except.map] at h
      | ok rest =>
        rw [hs] at h
        simp [Except.map] at h
        subst h
        cases j with
        | zero => exact ⟨valName, ty, written, by simpa using hc, by simp⟩
        | succ j =>
          have hj' : j < rest.length := by simpa using Nat.lt_of_succ_lt_succ hj
          obtain ⟨vn, t, w, hcall, hget⟩ :=
            ih (i + 1) (written ++ valBuf.drop written.length) rest hs j hj'
          refine ⟨vn, t, w, ?_, by simpa using hget⟩
          have e1 : i + (j + 1) = i + 1 + j := by omega
          rw [e1]
          exact hcall

theorem valuesSweep_trace_all_ok (st : ValueStore) (nameCap dataCap : Nat) :
    ∀ (n i : Nat) (valBuf : List BYTE),
      (∀ j, j < n → ∃ r, st.enumValueAt (i + j) nameCap dataCap = .ok r) →
      (valuesSweep st nameCap dataCap i n valBuf).2
        = (List.range' i n).map (fun j => (j, nameCap, dataCap)) := by
  intro n
  induction n with
  | zero => intro i valBuf _; rfl
  | succ n ih =>
    intro i valBuf hall
    obtain ⟨r, hx⟩ := hall 0 (Nat.succ_pos n)
    rw [Nat.add_zero] at hx
    obtain ⟨valName, ty, written⟩ := r
    rw [valuesSweep_succ_ok_head st nameCap dataCap i n valBuf valName ty written hx,
      List.range'_succ]
    simp only [List.map_cons]
    congr 1
    exact ih (i + 1) (written ++ valBuf.drop written.length) (fun j hj => by
      obtain ⟨y, hy⟩ := hall (j + 1) (Nat.succ_lt_succ hj)
      have e1 : i + 1 + j = i + (j + 1) := by omega
      exact ⟨y, by rw [e1]; exact hy⟩)

/-- C3: when every store call succeeds (no concurrent mutation), each of
`enum_subkeys`, `enum_value_names` and `enum_values` returns a collection
with exactly as many entries as the count reported by the preceding
`RegQueryInfoKeyW` size query, in the store's enumeration order. -/
theorem enum_count_invariant
    (stK : SubkeyStore) (stN : ValueNameStore) (stV : ValueStore)
    (kc km : Nat) (hkq : stK.queryInfo = .ok (kc, km))
    (hk : ∀ j, j < kc → ∃ x, stK.enumKeyAt j (km + 1) = .ok x)
    (nc nm : Nat) (hnq : stN.queryInfo = .ok (nc, nm))
    (hn : ∀ j, j < nc → ∃ x, stN.enumNameAt j (nm + 1) = .ok x)
    (vc vnm vm : Nat) (hvq : stV.queryInfo = .ok (vc, vnm, vm))
    (hv : ∀ j, j < vc → ∃ r, stV.enumValueAt j (vnm + 1) vm = .ok r) :
    (∃ names, enum_subkeys stK = .ok names ∧ names.length = kc)
      ∧ (∃ names, enum_value_names stN = .ok names ∧ names.length = nc)
      ∧ (∃ pairs, enum_values stV = .ok pairs ∧ pairs.length = vc) := by
  refine ⟨?_, ?_, ?_⟩
  · obtain ⟨xs, h1, h2⟩ := sweep_all_ok stK.enumKeyAt (km + 1) kc 0
      (fun j hj => by simpa using hk j hj)
    exact ⟨xs, by simp [enum_subkeys, hkq, h1], h2⟩
  · obtain ⟨xs, h1, h2⟩ := sweep_all_ok stN.enumNameAt (nm + 1) nc 0
      (fun j hj => by simpa using hn j hj)
    exact ⟨xs, by simp [enum_value_names, hnq, h1], h2⟩
  · obtain ⟨xs, h1, h2⟩ := valuesSweep_all_ok stV (vnm + 1) vm vc 0
      (List.replicate vm 0) (fun j hj => by simpa using hv j hj)
    exact ⟨xs, by simp [enum_values, hvq, h1], h2⟩

/-- Demonstration store oracles with every call succeeding, used to witness
the enumeration theorems on concrete inputs. -/
def demoSubkeyStore : SubkeyStore :=
  ⟨.ok (2, 3), fun i _ => .ok [65 + i]⟩

def demoValueNameStore : ValueNameStore :=
  ⟨.ok (1, 4), fun i _ => .ok [110 + i]⟩

def demoValueStore : ValueStore :=
  ⟨.ok (2, 2, 3), fun i _ _ => .ok ([100 + i], REG_BINARY, [i, i + 1])⟩

/-- Witness for C3 on the concrete demonstration stores. -/
theorem enum_count_invariant_witness :
    (∃ names, enum_subkeys demoSubkeyStore = .ok names ∧ names.length = 2)
      ∧ (∃ names, enum_value_names demoValueNameStore = .ok names ∧ names.length = 1)
      ∧ (∃ pairs, enum_values demoValueStore = .ok pairs ∧ pairs.length = 2) :=
  enum_count_invariant demoSubkeyStore demoValueNameStore demoValueStore
    2 3 rfl (fun j _ => ⟨[65 + j], rfl⟩)
    1 4 rfl (fun j _ => ⟨[110 + j], rfl⟩)
    2 2 3 rfl (fun j _ => ⟨([100 + j], REG_BINARY, [j, j + 1]), rfl⟩)

/-- C4: enumeration is all-or-nothing.  If the per-item store call at the
first failing index returns an error, each enumerator returns exactly that
error; the vector collected so far leaves the function only through the
success path, so no partially-populated collection reaches the caller. -/
theorem enum_all_or_nothing
    (stK : SubkeyStore) (stN : ValueNameStore) (stV : ValueStore)
    (kc km jk ek : Nat) (hkq : stK.queryInfo = .ok (kc, km))
    (hkj : jk < kc) (hkfail : stK.enumKeyAt jk (km + 1) = .error ek)
    (hkok : ∀ k, k < jk → ∃ x, stK.enumKeyAt k (km + 1) = .ok x)
    (nc nm jn en : Nat) (hnq : stN.queryInfo = .ok (nc, nm))
    (hnj : jn < nc) (hnfail : stN.enumNameAt jn (nm + 1) = .error en)
    (hnok : ∀ k, k < jn → ∃ x, stN.enumNameAt k (nm + 1) = .ok x)
    (vc vnm vm jv ev : Nat) (hvq : stV.queryInfo = .ok (vc, vnm, vm))
    (hvj : jv < vc) (hvfail : stV.enumValueAt jv (vnm + 1) vm = .error ev)
    (hvok : ∀ k, k < jv → ∃ r, stV.enumValueAt k (vnm + 1) vm = .ok r) :
    enum_subkeys stK = .error ek
      ∧ enum_value_names stN = .error en
      ∧ enum_values stV = .error ev := by
  refine ⟨?_, ?_, ?_⟩
  · have h := sweep_first_error stK.enumKeyAt (km + 1) kc 0 jk ek hkj
      (by simpa using hkfail) (fun k hk => by simpa using hkok k hk)
    simp [enum_subkeys, hkq, h]
  · have h := sweep_first_error stN.enumNameAt (nm + 1) nc 0 jn en hnj
      (by simpa using hnfail) (fun k hk => by simpa using hnok k hk)
    simp [enum_value_names, hnq, h]
  · have h := valuesSweep_first_error stV (vnm + 1) vm vc 0 jv ev
      (List.replicate vm 0) hvj (by simpa using hvfail)
      (fun k hk => by simpa using hvok k hk)
    simp [enum_values, hvq, h]

/-- Demonstration store oracles whose enumerate call fails at index 1, used
to witness the all-or-nothing theorem. -/
def failSubkeyStore : SubkeyStore :=
  ⟨.ok (3, 2), fun i _ => if i = 1 then .error 5 else .ok [65]⟩

def failValueNameStore : ValueNameStore :=
  ⟨.ok (2, 2), fun i _ => if i = 1 then .error 6 else .ok [110]⟩

def failValueStore : ValueStore :=
  ⟨.ok (3, 2, 2), fun i _ _ => if i = 1 then .error 8 else .ok ([100], REG_DWORD, [1])⟩

/-- Witness for C4 on the concrete failing stores. -/
theorem enum_all_or_nothing_witness :
    enum_subkeys failSubkeyStore = .error 5
      ∧ enum_value_names failValueNameStore = .error 6
      ∧ enum_values failValueStore = .error 8 :=
  enum_all_or_nothing failSubkeyStore failValueNameStore failValueStore
    3 2 1 5 rfl (by decide) rfl
    (fun k hk => ⟨[65], by interval_cases k <;> rfl⟩)
    2 2 1 6 rfl (by decide) rfl
    (fun k hk => ⟨[110], by interval_cases k <;> rfl⟩)
    3 2 2 1 8 rfl (by decide) rfl
    (fun k hk => ⟨([100], REG_DWORD, [1]), by interval_cases k <;> rfl⟩)

/-- C5: every `Value` in a successful `enum_values` result has its `length`
field equal to the byte length the store reported for that index, its
`data` buffer holding exactly the bytes the store wrote for that index
(`length = data.length`), and — since `data` is the fresh per-item copy
`valBufOther`, a function of that index's store response alone — no sharing
with the reusable sweep buffer or any other returned `Value`. -/
theorem enum_values_exact_snapshot
    (stV : ValueStore) (vc vnm vm : Nat) (hq : stV.queryInfo = .ok (vc, vnm, vm))
    (pairs : List (List WCHAR × Value)) (hok : enum_values stV = .ok pairs)
    (j : Nat) (hj : j < pairs.length) :
    ∃ valName ty written,
      stV.enumValueAt j (vnm + 1) vm = .ok (valName, ty, written)
        ∧ pairs.get ⟨j, hj⟩ = (valName, Value.mk ty written written.length)
        ∧ (pairs.get ⟨j, hj⟩).2.data.length = (pairs.get ⟨j, hj⟩).2.length := by
  have hok' : (valuesSweep stV (vnm + 1) vm 0 vc (List.replicate vm 0)).1 = .ok pairs := by
    unfold enum_values at hok
    rw [hq] at hok
    exact hok
  obtain ⟨valName, ty, written, hcall, hget⟩ :=
    valuesSweep_ok_get stV (vnm + 1) vm vc 0 (List.replicate vm 0) pairs hok' j hj
  refine ⟨valName, ty, written, by simpa using hcall, hget, ?_⟩
  rw [hget]

/-- Witness for C5 on the concrete demonstration value store, index 0. -/
theorem enum_values_exact_snapshot_witness :
    ∃ valName ty written,
      demoValueStore.enumValueAt 0 (2 + 1) 3 = .ok (valName, ty, written)
        ∧ ([([100], Value.mk REG_BINARY [0, 1] 2),
            ([101], Value.mk REG_BINARY [1, 2] 2)].get ⟨0, by decide⟩
             : List WCHAR × Value)
            = (valName, Value.mk ty written written.length)
        ∧ (([([100], Value.mk REG_BINARY [0, 1] 2),
             ([101], Value.mk REG_BINARY [1, 2] 2)].get ⟨0, by decide⟩
              : List WCHAR × Value)).2.data.length
            = (([([100], Value.mk REG_BINARY [0, 1] 2),
                 ([101], Value.mk REG_BINARY [1, 2] 2)].get ⟨0, by decide⟩
                  : List WCHAR × Value)).2.length :=
  enum_values_exact_snapshot demoValueStore 2 2 3 rfl
    [([100], Value.mk REG_BINARY [0, 1] 2), ([101], Value.mk REG_BINARY [1, 2] 2)]
    rfl 0 (by decide)

/-- C9: the two-phase protocol.  After the single size query reports
`(count, max name length)`, the sweep issues exactly one enumerate call per
index `0 .. count-1`, every one with the reusable buffer's capacity
`max + 1` (for `enum_values`, name capacity `maxValNameLength + 1` and data
capacity `maxValLength`), and when the store honours its contract that a
successful call fits the buffer, every returned name length is at most the
buffer capacity. -/
theorem enum_two_phase_protocol
    (stK : SubkeyStore) (stV : ValueStore)
    (kc km : Nat) (hkq : stK.queryInfo = .ok (kc, km))
    (hk : ∀ j, j < kc → ∃ x, stK.enumKeyAt j (km + 1) = .ok x)
    (hkcontract : ∀ i cap name, stK.enumKeyAt i cap = .ok name → name.length ≤ cap)
    (vc vnm vm : Nat) (hvq : stV.queryInfo = .ok (vc, vnm, vm))
    (hv : ∀ j, j < vc → ∃ r, stV.enumValueAt j (vnm + 1) vm = .ok r) :
    enum_subkeys_calls stK = (List.range' 0 kc).map (fun j => (j, km + 1))
      ∧ enum_values_calls stV = (List.range' 0 vc).map (fun j => (j, vnm + 1, vm))
      ∧ ∀ names, enum_subkeys stK = .ok names →
          ∀ name ∈ names, name.length ≤ km + 1 := by
  refine ⟨?_, ?_, ?_⟩
  · have h := sweep_trace_all_ok stK.enumKeyAt (km + 1) kc 0
      (fun j hj => by simpa using hk j hj)
    simp [enum_subkeys_calls, hkq, h]
  · have h := valuesSweep_trace_all_ok stV (vnm + 1) vm vc 0
      (List.replicate vm 0) (fun j hj => by simpa using hv j hj)
    simp [enum_values_calls, hvq, h]
  · intro names hnames name hmem
    have hnames' : (sweep stK.enumKeyAt (km + 1) 0 kc).1 = .ok names := by
      unfold enum_subkeys at hnames
      rw [hkq] at hnames
      exact hnames
    obtain ⟨⟨j, hj⟩, hg⟩ := List.mem_iff_get.mp hmem
    have hcall := sweep_ok_get stK.enumKeyAt (km + 1) kc 0 names hnames' j hj
    rw [hg] at hcall
    exact hkcontract (0 + j) (km + 1) name hcall

/-- Store oracle honouring the fits-the-buffer contract, used to witness the
two-phase-protocol theorem. -/
def boundedSubkeyStore : SubkeyStore :=
  ⟨.ok (2, 1), fun i cap => .ok (List.replicate (min 1 cap) (65 + i))⟩

/-- Witness for C9 on concrete stores. -/
theorem enum_two_phase_protocol_witness :
    enum_subkeys_calls boundedSubkeyStore
        = (List.range' 0 2).map (fun j => (j, 1 + 1))
      ∧ enum_values_calls demoValueStore
          = (List.range' 0 2).map (fun j => (j, 2 + 1, 3))
      ∧ ∀ names, enum_subkeys boundedSubkeyStore = .ok names →
          ∀ name ∈ names, name.length ≤ 1 + 1 :=
  enum_two_phase_protocol boundedSubkeyStore demoValueStore
    2 1 rfl (fun j _ => ⟨List.replicate (min 1 (1 + 1)) (65 + j), rfl⟩)
    (fun i cap name h => by
      injection h with h2
      rw [← h2]
      simpa using Nat.min_le_right 1 cap)
    2 2 3 rfl (fun j _ => ⟨([100 + j], REG_BINARY, [j, j + 1]), rfl⟩)

/-! ## Typed value setters

Every setter is a single `RegSetValueExW` call wrapped in
`THROW_IF_WIN32_ERROR`.  A `WriteCall` records the arguments of one such
call (value name, type tag, byte payload); the store oracle maps each call
to the status it returns, and each setter returns its result paired with
the trace of write calls issued. -/

/-- Arguments of one `RegSetValueExW` call issued against the store. -/
structure WriteCall where
  valueName : List WCHAR
  type : Nat
  data : List BYTE
  deriving DecidableEq, Repr

/-- Little-endian byte `k` of the integer `v` (x86/x64 object layout). -/
def byteAt (v k : Nat) : BYTE := v / 2 ^ (8 * k) % 256

/-- Object representation of a `DWORD`: `sizeof(val) = 4` bytes. -/
def dwordBytes (v : Nat) : List BYTE := (List.range 4).map (byteAt v)

/-- Object representation of a `ULONGLONG`: `sizeof(val) = 8` bytes. -/
def qwordBytes (v : Nat) : List BYTE := (List.range 8).map (byteAt v)

/-- Bytes of one wide character; on Windows `sizeof(wchar_t) = 2`
(UTF-16LE). -/
def wcharBytes (c : WCHAR) : List BYTE := [c % 256, c / 256 % 256]

/-- Byte payload passed for a wide string: `(val.size() + 1) *
sizeof(wchar_t)` bytes starting at `val.c_str()`, i.e. the characters plus
the trailing NUL terminator. -/
def wstringBytes (val : List WCHAR) : List BYTE :=
  ((val ++ [0]).map wcharBytes).flatten

/-- One `RegSetValueExW` call guarded by `THROW_IF_WIN32_ERROR`; the result
and the singleton trace of calls issued. -/
def regSetValueEx (setStatus : WriteCall → Nat) (c : WriteCall) :
    Except Nat Unit × List WriteCall :=
  (throwIfWin32Error (setStatus c), [c])

/-- Source method `Key::set_dword_value`. -/
def set_dword_value (setStatus : WriteCall → Nat) (valueName : List WCHAR)
    (val : Nat) : Except Nat Unit × List WriteCall :=
  regSetValueEx setStatus ⟨valueName, REG_DWORD, dwordBytes val⟩

/-- Source method `Key::set_qword_value`. -/
def set_qword_value (setStatus : WriteCall → Nat) (valueName : List WCHAR)
    (val : Nat) : Except Nat Unit × List WriteCall :=
  regSetValueEx setStatus ⟨valueName, REG_QWORD, qwordBytes val⟩

/-- Source method `Key::set_string_value`. -/
def set_string_value (setStatus : WriteCall → Nat) (valueName : List WCHAR)
    (val : List WCHAR) : Except Nat Unit × List WriteCall :=
  regSetValueEx setStatus ⟨valueName, REG_SZ, wstringBytes val⟩

/-- Source method `Key::set_expanded_string_value`. -/
def set_expanded_string_value (setStatus : WriteCall → Nat)
    (valueName : List WCHAR) (val : List WCHAR) :
    Except Nat Unit × List WriteCall :=
  regSetValueEx setStatus ⟨valueName, REG_EXPAND_SZ, wstringBytes val⟩

/-- Source method `Key::set_multistring_value`: `buf.size() *
sizeof(wchar_t)` bytes starting at `buf.data()`. -/
def set_multistring_value (setStatus : WriteCall → Nat)
    (valueName : List WCHAR) (val : List (List WCHAR)) :
    Except Nat Unit × List WriteCall :=
  regSetValueEx setStatus
    ⟨valueName, REG_MULTI_SZ, ((build_multistring val).map wcharBytes).flatten⟩

/-- Source method `Key::set_binary_value` (vector overload; the
pointer-plus-size overload passes the same caller-supplied bytes). -/
def set_binary_value (setStatus : WriteCall → Nat) (valueName : List WCHAR)
    (val : List BYTE) : Except Nat Unit × List WriteCall :=
  regSetValueEx setStatus ⟨valueName, REG_BINARY, val⟩

theorem wstringBytes_length (val : List WCHAR) :
    (wstringBytes val).length = (val.length + 1) * 2 := by
  unfold wstringBytes
  induction val with
  | nil => rfl
  | cons c t ih =>
      simp only [List.cons_append, List.map_cons, List.flatten_cons,
        List.length_append, List.length_cons] at ih ⊢
      simp [wcharBytes] at ih ⊢
      omega

/-- C6: each typed setter issues exactly one store write call in its fixed
wire form: 4 bytes for a `DWORD`, 8 bytes for a `QWORD`, `(length + 1) * 2`
bytes (text plus one trailing NUL in the native 2-byte character width) for
a string, and exactly the caller-supplied bytes with no framing for a
binary value.  The trace is a singleton, so no partial write is possible. -/
theorem setters_single_fixed_width_write (setStatus : WriteCall → Nat)
    (name val : List WCHAR) (d q : Nat) (bin : List BYTE) :
    ((set_dword_value setStatus name d).2 = [⟨name, REG_DWORD, dwordBytes d⟩]
        ∧ (dwordBytes d).length = 4)
      ∧ ((set_qword_value setStatus name q).2 = [⟨name, REG_QWORD, qwordBytes q⟩]
          ∧ (qwordBytes q).length = 8)
      ∧ ((set_string_value setStatus name val).2 = [⟨name, REG_SZ, wstringBytes val⟩]
          ∧ (wstringBytes val).length = (val.length + 1) * 2)
      ∧ (set_binary_value setStatus name bin).2 = [⟨name, REG_BINARY, bin⟩] :=
  ⟨⟨rfl, rfl⟩, ⟨rfl, rfl⟩, ⟨rfl, wstringBytes_length val⟩, rfl⟩

/-- C7: `set_expanded_string_value` issues a write call with exactly the
same value name and the same byte payload (same length) as
`set_string_value` on the same input — the string is stored verbatim, no
placeholder expansion — differing only in the type tag (`REG_EXPAND_SZ`
instead of `REG_SZ`). -/
theorem expanded_string_same_payload (setStatus : WriteCall → Nat)
    (name val : List WCHAR) :
    (set_expanded_string_value setStatus name val).2.map WriteCall.data
        = (set_string_value setStatus name val).2.map WriteCall.data
      ∧ (set_expanded_string_value setStatus name val).2.map WriteCall.valueName
          = (set_string_value setStatus name val).2.map WriteCall.valueName
      ∧ (set_expanded_string_value setStatus name val).2
          = [⟨name, REG_EXPAND_SZ, wstringBytes val⟩]
      ∧ (set_string_value setStatus name val).2
          = [⟨name, REG_SZ, wstringBytes val⟩]
      ∧ REG_EXPAND_SZ ≠ REG_SZ :=
  ⟨rfl, rfl, rfl, rfl, by decide⟩

/-! ## Deletion and error propagation -/

/-- Modelled Windows-store semantics of `RegDeleteValueW` on one key whose
current value names are `values`: deleting an absent name returns
`ERROR_FILE_NOT_FOUND` (the spec's `NotFound`), a present one succeeds. -/
def store_delete_value (values : List (List WCHAR)) (valueName : List WCHAR) : Nat :=
  if valueName ∈ values then ERROR_SUCCESS else ERROR_FILE_NOT_FOUND

/-- Source method `Key::delete_value`: one `RegDeleteValueW` call guarded by
`THROW_IF_WIN32_ERROR`. -/
def delete_value (values : List (List WCHAR)) (valueName : List WCHAR) :
    Except Nat Unit :=
  throwIfWin32Error (store_delete_value values valueName)

/-- C8: `delete_value` on an absent value name fails with the store's
`NotFound` status, and the fallible operations check the store's status
immediately and surface the first failure with the underlying code
preserved — a nonzero status becomes exactly `.error status` (never
swallowed, never retried: the trace stays a single call), and a zero status
succeeds. -/
theorem delete_value_absent_not_found
    (values : List (List WCHAR)) (valueName : List WCHAR)
    (habs : valueName ∉ values)
    (setStatus : WriteCall → Nat) (c : WriteCall)
    (hc : setStatus c ≠ ERROR_SUCCESS) :
    delete_value values valueName = .error ERROR_FILE_NOT_FOUND
      ∧ (regSetValueEx setStatus c).1 = .error (setStatus c)
      ∧ (regSetValueEx setStatus c).2 = [c]
      ∧ ∀ status : Nat, status ≠ ERROR_SUCCESS →
          throwIfWin32Error status = .error status := by
  refine ⟨?_, ?_, rfl, ?_⟩
  · simp [delete_value, store_delete_value, habs, throwIfWin32Error,
      ERROR_SUCCESS, ERROR_FILE_NOT_FOUND]
  · simp [regSetValueEx, throwIfWin32Error, hc]
  · intro status hstatus
    simp [throwIfWin32Error, hstatus]

/-- Witness for C8: deleting the absent name `[7]` from a key holding only
the value name `[1]`, and a write call the store rejects with status 5. -/
theorem delete_value_absent_not_found_witness :
    delete_value [[1]] [7] = .error ERROR_FILE_NOT_FOUND
      ∧ (regSetValueEx (fun _ : WriteCall => 5) ⟨[], REG_SZ, []⟩).1
          = .error ((fun _ : WriteCall => 5) ⟨[], REG_SZ, []⟩)
      ∧ (regSetValueEx (fun _ : WriteCall => 5) ⟨[], REG_SZ, []⟩).2
          = [⟨[], REG_SZ, []⟩]
      ∧ ∀ status : Nat, status ≠ ERROR_SUCCESS →
          throwIfWin32Error status = .error status :=
  delete_value_absent_not_found [[1]] [7] (by decide)
    (fun _ : WriteCall => 5) ⟨[], REG_SZ, []⟩ (by decide)

/-! ## Key construction -/

/-- Arguments of one `RegCreateKeyExW` call issued against the store
(create-or-open; the source always passes class `REG_NONE` and, through the
convenience overloads, null security attributes and disposition). -/
structure CreateCall where
  hKeyParent : Nat
  subKey : List WCHAR
  desiredAccess : Nat
  options : Nat
  deriving DecidableEq, Repr

def KEY_READ : Nat := 0x20019
def KEY_WRITE : Nat := 0x20006
def REG_OPTION_NON_VOLATILE : Nat := 0

/-- Source class `Key`: exclusive owner of one store handle;
`m_hKey = none` is the default-constructed invalid state. -/
structure Key where
  m_hKey : Option Nat := none
  deriving DecidableEq, Repr

/-- Source method `Key::is_valid`. -/
def Key.is_valid (k : Key) : Bool := k.m_hKey.isSome

/-- Source method `Key::create` (full overload): one `RegCreateKeyExW`
call; on success the wrapped handle is stored in `m_hKey`.  Returns the
result and the singleton trace of create-or-open calls issued. -/
def Key.create_full (createOrOpen : CreateCall → Except Nat Nat)
    (hKeyParent : Nat) (subKey : List WCHAR) (desiredAccess options : Nat) :
    Except Nat Key × List CreateCall :=
  (match createOrOpen ⟨hKeyParent, subKey, desiredAccess, options⟩ with
   | .error e => .error e
   | .ok hKey => .ok ⟨some hKey⟩,
   [⟨hKeyParent, subKey, desiredAccess, options⟩])

/-- Source method `Key::create` (three-argument overload): delegates with
`REG_OPTION_NON_VOLATILE`, null security attributes and null disposition. -/
def Key.create (createOrOpen : CreateCall → Except Nat Nat)
    (hKeyParent : Nat) (subKey : List WCHAR) (desiredAccess : Nat) :
    Except Nat Key × List CreateCall :=
  Key.create_full createOrOpen hKeyParent subKey desiredAccess
    REG_OPTION_NON_VOLATILE

/-- Source constructor `Key::Key(HKEY, const std::wstring&)`: immediately
calls `create` with the defaulted access `KEY_READ | KEY_WRITE`. -/
def Key.ctor2 (createOrOpen : CreateCall → Except Nat Nat)
    (hKeyParent : Nat) (subKey : List WCHAR) :
    Except Nat Key × List CreateCall :=
  Key.create createOrOpen hKeyParent subKey (KEY_READ ||| KEY_WRITE)

/-- Source constructor `Key::Key(HKEY, const std::wstring&, REGSAM)`:
immediately calls `create` with the given access. -/
def Key.ctor3 (createOrOpen : CreateCall → Except Nat Nat)
    (hKeyParent : Nat) (subKey : List WCHAR) (desiredAccess : Nat) :
    Except Nat Key × List CreateCall :=
  Key.create createOrOpen hKeyParent subKey desiredAccess

/-- C10: the convenience constructors perform create-or-open immediately —
each issues exactly one `RegCreateKeyExW` call (the two-argument form with
read-write access and non-volatile options), the store call that may create
a persistent node; on store success the constructed Key is valid, never an
invalid Key awaiting a later create/open. -/
theorem ctor_creates_immediately (createOrOpen : CreateCall → Except Nat Nat)
    (parent : Nat) (subKey : List WCHAR) (access hKey : Nat)
    (hok : createOrOpen
        ⟨parent, subKey, KEY_READ ||| KEY_WRITE, REG_OPTION_NON_VOLATILE⟩
      = .ok hKey) :
    (Key.ctor2 createOrOpen parent subKey).2
        = [⟨parent, subKey, KEY_READ ||| KEY_WRITE, REG_OPTION_NON_VOLATILE⟩]
      ∧ (Key.ctor3 createOrOpen parent subKey access).2
          = [⟨parent, subKey, access, REG_OPTION_NON_VOLATILE⟩]
      ∧ (Key.ctor2 createOrOpen parent subKey).1 = .ok ⟨some hKey⟩
      ∧ (Key.mk (some hKey)).is_valid = true := by
  refine ⟨rfl, rfl, ?_, rfl⟩
  simp [Key.ctor2, Key.create, Key.create_full, hok]

/-- Witness for C10 with a concrete store that hands back handle 7. -/
theorem ctor_creates_immediately_witness :
    (Key.ctor2 (fun _ => .ok 7) 1 [3]).2
        = [⟨1, [3], KEY_READ ||| KEY_WRITE, REG_OPTION_NON_VOLATILE⟩]
      ∧ (Key.ctor3 (fun _ => .ok 7) 1 [3] 5).2
          = [⟨1, [3], 5, REG_OPTION_NON_VOLATILE⟩]
      ∧ (Key.ctor2 (fun _ => .ok 7) 1 [3]).1 = .ok ⟨some 7⟩
      ∧ (Key.mk (some 7)).is_valid = true :=
  ctor_creates_immediately (fun _ => .ok 7) 1 [3] 5 7 rfl

end seagull
